import Mathlib

/-!
Verification development for the jiffy batch-transcoding orchestrator
(src/lib.rs).  The Rust functions relevant to the scheduler, the quota
controller, the commit/validation engine and the aggregator are embedded as
executable Lean definitions, and the specification's claims about them are
settled as theorems below the definitions.

Conventions used throughout the embedding:
- Rust u64/usize quantities become Nat; the i32 subtraction in
  wait_for_ffmpeg becomes Int subtraction.
- Paths and messages are abstracted to identifiers; the exact message text
  is irrelevant to the claims, only which message is emitted and for which
  path.
- Fallible code returns Option, or carries an explicit error component.
-/

namespace Jiffy

/-! ## Size validation policy: Encoder::check_encoded_size (lib.rs 930-967)

The Rust function reads the output file size, deletes tiny outputs, and
applies the expected-size percentage policy.  The messages sent along
warning_tx are modelled as constructors carrying the data interpolated into
the Rust format strings. -/

/-- The warning messages check_encoded_size can send along warning_tx,
in the order they appear in the source. -/
inductive SizeMsg
  | deletingTinyOutput (size : Nat)
  | deletingTooLarge (percent : Nat)
  | largerThanExpected (percent : Nat)
  | muchSmallerThanExpected (percent : Nat)
  | deletingLargerThanOriginal (percent : Nat)
  deriving DecidableEq, Repr

/-- Result of the size check: the warnings sent, and whether the output file
was removed by remove_file. -/
structure SizeCheckOut where
  msgs : List SizeMsg
  deleted : Bool
  deriving DecidableEq, Repr

/-- Embedding of Encoder::check_encoded_size (lib.rs 930-967), for an output
file that exists and has size `size`.  `expected_size` is cli.expected_size,
`delete_too_large` is cli.delete_too_large, `orig_size` the input size
captured before spawning.  `percent` is the Rust u64 integer division
size * 100 / orig_size. -/
def check_encoded_size (expected_size : Option Nat) (delete_too_large : Bool)
    (orig_size size : Nat) : SizeCheckOut :=
  if size < 300 then
    ⟨[.deletingTinyOutput size], true⟩
  else
    let percent := size * 100 / orig_size
    match expected_size with
    | some expected =>
      if expected < percent then
        if delete_too_large then ⟨[.deletingTooLarge percent], true⟩
        else ⟨[.largerThanExpected percent], false⟩
      else if percent < expected / 3 then ⟨[.muchSmallerThanExpected percent], false⟩
      else if 100 < percent ∧ delete_too_large then
        ⟨[.deletingLargerThanOriginal percent], true⟩
      else ⟨[], false⟩
    | none => ⟨[], false⟩

/-! ## Minimum input size: parse_size and input_too_small (lib.rs 1033-1063)

parse_size lowercases its input, matches it against the regular expression
anchored-(dot digits | digits (dot digits-star)?)(b|k|m|g|t)?-anchored,
parses the numeric part and multiplies by the suffix factor.  The numeric
part is modelled exactly as a fraction numerator/denominator instead of an
f64; the final Rust cast "as u64" truncates toward zero, which for the
exact fraction is Nat floor division.  Strings are modelled as lists of
characters. -/

/-- Numeric value of one ASCII digit. -/
def digitVal (c : Char) : Nat := c.toNat - 48

/-- Value of a digit string, most significant digit first (what
str::parse computes on an all-digit string). -/
def digitsVal (ds : List Char) : Nat := ds.foldl (fun acc c => acc * 10 + digitVal c) 0

/-- Whether every character of the list is an ASCII digit. -/
def allDigits (ds : List Char) : Bool := ds.all Char.isDigit

/-- Maximal leading run of digits, together with the remainder; the
digit-munching the regex performs at the start of the numeric part. -/
def takeDigits : List Char → List Char × List Char
  | [] => ([], [])
  | c :: cs =>
    if c.isDigit then
      let (ds, rest) := takeDigits cs
      (c :: ds, rest)
    else ([], c :: cs)

/-- The numeric part of parse_size's regular expression: either
dot digits-plus, or digits-plus optionally followed by dot digits-star.
Returns the value as numerator and denominator (denominator a power of ten),
or none when the string does not match. -/
def parseNumber (cs : List Char) : Option (Nat × Nat) :=
  match takeDigits cs with
  | ([], '.' :: fracPart) =>
    if fracPart ≠ [] ∧ allDigits fracPart = true then
      some (digitsVal fracPart, 10 ^ fracPart.length)
    else none
  | ([], _) => none
  | (intPart, []) => some (digitsVal intPart, 1)
  | (intPart, '.' :: fracPart) =>
    if allDigits fracPart = true then
      some (digitsVal intPart * 10 ^ fracPart.length + digitsVal fracPart,
            10 ^ fracPart.length)
    else none
  | _ => none

/-- The factor the optional (already lowercased) suffix selects in
parse_size, none for a character that is not a valid suffix. -/
def suffixFactor (c : Char) : Option Nat :=
  if c = 'b' then some 1
  else if c = 'k' then some (2 ^ 10)
  else if c = 'm' then some (2 ^ 20)
  else if c = 'g' then some (2 ^ 30)
  else if c = 't' then some (2 ^ 40)
  else none

/-- Embedding of parse_size (lib.rs 1033-1055).  The input is lowercased;
a trailing suffix character selects the factor, a missing suffix defaults
to m (2 ^ 20); the numeric part times the factor is truncated to an
integer.  Errors (anyhow::Result) are modelled as none. -/
def parse_size (input : List Char) : Option Nat :=
  let cs := input.map Char.toLower
  match cs.getLast? with
  | none => none
  | some last =>
    match suffixFactor last with
    | some factor =>
      match parseNumber cs.dropLast with
      | some (num, den) => some (factor * num / den)
      | none => none
    | none =>
      match parseNumber cs with
      | some (num, den) => some (2 ^ 20 * num / den)
      | none => none

/-- Embedding of input_too_small (lib.rs 1057-1063): with a configured
minimum-size string the input is too small iff its size is strictly below
the parsed threshold; with no configured string it is never too small.
A parse failure propagates as none. -/
def input_too_small (size : Nat) (input_str : Option (List Char)) : Option Bool :=
  match input_str with
  | some s => (parse_size s).map (fun threshold => decide (size < threshold))
  | none => some false

/-! ## Commit and validation engine: Encoder::encode_video_inner

The pre-start checks (lib.rs 466-475 and 560-577), the engine run, and the
post-exit commit/validation sequence (lib.rs 714-736) are modelled over an
abstract two-slot filesystem holding the final output path and the partial
output path of one job.  The external encoder writes only to the partial
path; only the rename at line 722 makes data appear at the final path. -/

/-- Contents of one output slot: a file the encoder finished writing, or a
half-written one. -/
inductive FileData
  | incomplete (sz : Nat)
  | complete (sz : Nat)
  deriving DecidableEq, Repr

/-- Byte size of the file, as get_file_size reads it. -/
def FileData.size : FileData → Nat
  | .incomplete n => n
  | .complete n => n

/-- The two filesystem locations a job touches: its final output path and
its partial (.part.ext) output path. -/
structure FS where
  finalFile : Option FileData
  partFile : Option FileData
  deriving DecidableEq, Repr

/-- The job-fatal errors of the post-exit sequence: the
finished-without-overwrite conflict bail (lib.rs 717), a rename failure,
and the get_file_size failure inside check_encoded_size when the output
path does not exist (lib.rs 937). -/
inductive JobErr
  | conflictExists
  | renameFailed
  | noOutputSize
  deriving DecidableEq, Repr

/-- Warnings the post-exit sequence sends along warning_tx: the
encoding-error warning of lib.rs 724-730 and the size-policy warnings. -/
inductive JobMsg
  | encodingError
  | size (m : SizeMsg)
  deriving DecidableEq, Repr

/-- What the post-exit sequence produced: the resulting filesystem, the
warnings sent, the job error if any, and whether the partial-to-final
rename was performed. -/
structure ExitOutcome where
  fs : FS
  msgs : List JobMsg
  err : Option JobErr
  renamed : Bool
  deriving DecidableEq, Repr

/-- check_encoded_size wired to the abstract filesystem: reading the size
of a missing output path fails (the context error at lib.rs 937), and a
deletion by the policy removes the final file. -/
def sizeValidate (expected_size : Option Nat) (delete_too_large : Bool)
    (orig_size : Nat) (fs : FS) : FS × List JobMsg × Option JobErr :=
  match fs.finalFile with
  | none => (fs, [], some .noOutputSize)
  | some f =>
    let out := check_encoded_size expected_size delete_too_large orig_size f.size
    (⟨if out.deleted then none else some f, fs.partFile⟩,
     out.msgs.map JobMsg.size, none)

/-- Embedding of the post-exit sequence of encode_video_inner
(lib.rs 714-736): on success, either the no-overwrite conflict bail or the
partial-to-final rename, then size validation; on failure, the
encoding-error warning, then size validation on whatever is at the final
path. -/
def afterExit (overwrite delete_too_large : Bool) (expected_size : Option Nat)
    (orig_size : Nat) (exitSuccess : Bool) (fs : FS) : ExitOutcome :=
  if exitSuccess then
    if overwrite = false ∧ fs.finalFile.isSome then
      ⟨fs, [], some .conflictExists, false⟩
    else
      match fs.partFile with
      | none => ⟨fs, [], some .renameFailed, false⟩
      | some f =>
        let moved : FS := ⟨some f, none⟩
        let v := sizeValidate expected_size delete_too_large orig_size moved
        ⟨v.1, v.2.1, v.2.2, true⟩
  else
    let v := sizeValidate expected_size delete_too_large orig_size fs
    ⟨v.1, .encodingError :: v.2.1, v.2.2, false⟩

/-- The external encoder process between spawn and exit: it writes only the
partial output path, leaving a complete file there exactly when it exits
successfully. -/
def runEngine (exitSuccess : Bool) (outSize : Nat) (fs : FS) : FS :=
  ⟨fs.finalFile, some (if exitSuccess then .complete outSize else .incomplete outSize)⟩

/-- One spawned job from spawn to the end of encode_video_inner: the engine
runs, then the post-exit sequence. -/
def jobFromSpawn (overwrite delete_too_large : Bool) (expected_size : Option Nat)
    (orig_size : Nat) (exitSuccess : Bool) (outSize : Nat) (fs : FS) : ExitOutcome :=
  afterExit overwrite delete_too_large expected_size orig_size exitSuccess
    (runEngine exitSuccess outSize fs)

/-- The already-exists warnings of the pre-start check (lib.rs 562-575). -/
inductive PreWarn
  | outputExists
  | partOutputExists
  deriving DecidableEq, Repr

/-- What the pre-start phase did: warnings sent, whether create_dir_all
wrote the output directory, whether the engine was spawned, and whether the
phase ended in a job-fatal bail. -/
structure PreStartOut where
  warnings : List PreWarn
  createdDir : Bool
  spawned : Bool
  failed : Bool
  deriving DecidableEq, Repr

/-- Embedding of the pre-spawn phase of encode_video_inner: the output
parent directory handling (lib.rs 466-475), then — with overwrite disabled
— the refuse-to-start check on the final and partial paths
(lib.rs 560-577), then the too-small bail (lib.rs 682-684), the noop early
return, and otherwise the spawn. -/
def preStart (overwrite parentIsDir parentExists finalExists partExists
    noop tooSmall : Bool) : PreStartOut :=
  if parentIsDir = false ∧ parentExists = true then ⟨[], false, false, true⟩
  else
    let created := !parentIsDir
    if overwrite = false ∧ (finalExists = true ∨ partExists = true) then
      ⟨(if finalExists = true then [PreWarn.outputExists] else []) ++
        (if partExists = true then [PreWarn.partOutputExists] else []),
       created, false, false⟩
    else if tooSmall = true then ⟨[], created, false, true⟩
    else if noop = true then ⟨[], created, false, false⟩
    else ⟨[], created, true, false⟩

/-! ## Quota controller: Encoder::wait_for_ffmpeg (lib.rs 969-1030)

The wait-pseudo-job loop polls the shared completion flag and the set of
externally running ffmpeg processes.  The environment is modelled by two
oracles consumed in program order: one boolean per iteration for the value
of the completion flag read at the top of the loop (this list also serves
as fuel), and one snapshot per get_running_ffmpeg call made inside the
loop.  Process identifiers are naturals; running out of fuel yields
none. -/

/-- Why a wait-pseudo-job's loop ended: the completion flag was observed
set (lib.rs 1002-1005), or the re-snapshotted external process set grew no
further (lib.rs 1019-1022). -/
inductive WaitReason
  | finishedFlag
  | stableCount
  deriving DecidableEq, Repr

/-- Subset test on process-id snapshots (HashSet::is_subset). -/
def pidSubset (a b : List Nat) : Bool := a.all (fun x => b.contains x)

/-- Embedding of the loop of wait_for_ffmpeg for the wait-pseudo-job of
rank job_id, starting from the snapshot taken before the loop.  jobs is
cli.get_jobs(); the usize subtraction jobs - 1 - job_id truncates at zero
exactly like Rust's (ranks are always below jobs, so it never truncates in
runs the scheduler produces); too_many is computed in Int like the Rust
i32 arithmetic at lib.rs 1011. -/
def wait_for_ffmpeg (jobs job_id : Nat) (snap : List Nat) :
    List Bool → List (List Nat) → Option WaitReason
  | [], _ => none
  | flag :: fs, snaps =>
    if flag then some .finishedFlag
    else
      let allowed := jobs - 1 - job_id
      let too_many : Int := (snap.length : Int) - (allowed : Int)
      if too_many ≤ 0 then
        match snaps with
        | [] => none
        | newSnap :: rest =>
          if pidSubset newSnap snap then some .stableCount
          else wait_for_ffmpeg jobs job_id newSnap fs rest
      else wait_for_ffmpeg jobs job_id snap fs snaps

/-! ## Scheduler / worker pool: Encoder::encode_videos (lib.rs 373-441)

The loop drives a FuturesUnordered set of at most get_jobs() running tasks
over a queue of pending tasks.  Which running future finishes first is the
environment's choice; a schedule of choice indices models that
nondeterminism, one index per loop iteration.  Tasks carry an identifier so
that start order and completion multiplicity can be stated. -/

/-- One queued future: a real encode_video job that will complete with
Ok(EncodingDone) or with Err(EncodingErr(path, msg)), or a wait_for_ffmpeg
pseudo-job of a given rank (which always completes with
Ok(WaitTaskDone)). -/
inductive TaskKind
  | realOk
  | realErr (path msg : Nat)
  | wait (rank : Nat)
  deriving DecidableEq, Repr

/-- Whether the task is a real encode job; only these increment
finished_encode_count at lib.rs 408 and 412. -/
def TaskKind.isReal : TaskKind → Bool
  | .realOk => true
  | .realErr _ _ => true
  | .wait _ => false

/-- The record a failing job sends to the aggregator channel
(lib.rs 409). -/
def TaskKind.errRecord : TaskKind → Option (Nat × Nat)
  | .realErr p m => some (p, m)
  | _ => none

/-- A queued task: an identifier plus how its future will complete. -/
structure Task where
  id : Nat
  kind : TaskKind
  deriving DecidableEq, Repr

/-- Number of real encode jobs in a task list; on the full queue this is
task_count = input_files.len(). -/
def realCount (l : List Task) : Nat := l.countP (fun t => t.kind.isReal)

/-- lib.rs 378-393: the ordered real jobs become the queue, and — in
slow-start mode — get_jobs() wait-pseudo-jobs of ranks 0, 1, ... are pushed
one by one onto the front. -/
def buildQueue (slow_start : Bool) (jobs : Nat) (reals : List Task) : List Task :=
  let wait_count := if slow_start then jobs else 0
  (List.range wait_count).foldl
    (fun q i => { id := reals.length + i, kind := .wait i } :: q) reals

/-- The mutable state of the encode_videos loop. -/
structure SchedState where
  queue : List Task
  running : List Task
  taskCount : Nat
  finishedCount : Nat
  flag : Bool
  flagWrites : Nat
  records : List (Nat × Nat)
  startedIds : List Nat
  finished : List Task
  deriving DecidableEq, Repr

/-- lib.rs 395-401: the initial state; the first get_jobs() queued tasks
are pushed into the FuturesUnordered set, the rest remain queued.
task_count was computed at lib.rs 376 from the real jobs alone. -/
def initState (tasks : List Task) (jobs : Nat) : SchedState :=
  { queue := tasks.drop jobs
    running := tasks.take jobs
    taskCount := realCount tasks
    finishedCount := 0
    flag := false
    flagWrites := 0
    records := []
    startedIds := (tasks.take jobs).map Task.id
    finished := [] }

/-- lib.rs 406-421: bookkeeping when the future of task t completes: a
failing real job forwards its record to the channel, real completions
increment finished_encode_count, and whenever the count equals task_count
the completion flag is written. -/
def finishOne (s : SchedState) (t : Task) : SchedState :=
  let fin := if t.kind.isReal then s.finishedCount + 1 else s.finishedCount
  { s with
    finishedCount := fin
    records := s.records ++ t.kind.errRecord.toList
    flag := if fin = s.taskCount then true else s.flag
    flagWrites := if fin = s.taskCount then s.flagWrites + 1 else s.flagWrites
    finished := s.finished ++ [t] }

/-- lib.rs 423-428: after a completion, pop the front of the queue into the
running set, if the queue is nonempty. -/
def startNext (s : SchedState) : SchedState :=
  match s.queue with
  | [] => s
  | q :: qs =>
    { s with
      queue := qs
      running := s.running ++ [q]
      startedIds := s.startedIds ++ [q.id] }

/-- One iteration of the while-let loop at lib.rs 404-429: the
FuturesUnordered set yields some finished future — the choice index, taken
modulo the number of running tasks, models which — whose result is
processed, after which one new task is started. -/
def step (s : SchedState) (choice : Nat) : SchedState :=
  if s.running.isEmpty then s
  else
    let i := choice % s.running.length
    startNext (finishOne { s with running := s.running.eraseIdx i }
      (s.running.getD i ⟨0, .realOk⟩))

/-- The whole loop under a finishing schedule, one choice per iteration. -/
def run (s : SchedState) : List Nat → SchedState
  | [] => s
  | c :: cs => run (step s c) cs

/-- The loop invariant of encode_videos, tying a reachable state to the
initial task list and the concurrency limit. -/
structure Inv (tasks : List Task) (jobs : Nat) (s : SchedState) : Prop where
  run_le : s.running.length ≤ jobs
  queue_run : s.queue ≠ [] → s.running ≠ []
  started_queue : s.startedIds ++ s.queue.map Task.id = tasks.map Task.id
  conserve : s.finishedCount + realCount s.running + realCount s.queue = s.taskCount
  total : s.taskCount = realCount tasks
  perm : (s.finished.map Task.id ++ s.running.map Task.id ++ s.queue.map Task.id).Perm
    (tasks.map Task.id)
  flag_iff : 1 ≤ s.taskCount → (1 ≤ s.flagWrites ↔ s.finishedCount = s.taskCount)
  flag_eq : s.flag = decide (1 ≤ s.flagWrites)
  records_eq : s.records = s.finished.filterMap (fun t => t.kind.errRecord)

/-! # Theorems -/

/-! ## Helper lemmas for the scheduler -/

theorem getD_cons_eraseIdx_perm {α : Type} (l : List α) (i : Nat) (hi : i < l.length)
    (d : α) : (l.getD i d :: l.eraseIdx i).Perm l := by
  induction l generalizing i with
  | nil => simp at hi
  | cons a tl ih =>
    cases i with
    | zero => simp
    | succ j =>
      have hj : j < tl.length := by simpa using hi
      have h1 := ih j hj
      simp only [List.getD_cons_succ, List.eraseIdx_cons_succ]
      exact List.Perm.trans (List.Perm.swap a (tl.getD j d) (tl.eraseIdx j)) (h1.cons a)

theorem step_of_running_nil (s : SchedState) (c : Nat) (h : s.running = []) :
    step s c = s := by
  simp [step, h]

theorem step_of_running_ne (s : SchedState) (c : Nat) (h : s.running ≠ []) :
    step s c = startNext (finishOne
      { s with running := s.running.eraseIdx (c % s.running.length) }
      (s.running.getD (c % s.running.length) ⟨0, .realOk⟩)) := by
  simp only [step]
  rw [if_neg (by simp [List.isEmpty_iff, h])]

theorem startNext_nil (s : SchedState) (h : s.queue = []) : startNext s = s := by
  unfold startNext
  rw [h]

theorem startNext_cons (s : SchedState) (q : Task) (qs : List Task)
    (h : s.queue = q :: qs) :
    startNext s = { s with
      queue := qs
      running := s.running ++ [q]
      startedIds := s.startedIds ++ [q.id] } := by
  unfold startNext
  rw [h]

theorem realCount_cons (t : Task) (l : List Task) :
    realCount (t :: l) = realCount l + (if t.kind.isReal then 1 else 0) :=
  List.countP_cons _ t l

theorem realCount_append (l1 l2 : List Task) :
    realCount (l1 ++ l2) = realCount l1 + realCount l2 :=
  List.countP_append _ l1 l2

/-- Preservation of the scheduler loop invariant by one iteration. -/
theorem step_inv {tasks : List Task} {jobs : Nat} {s : SchedState}
    (h : Inv tasks jobs s) (c : Nat) : Inv tasks jobs (step s c) := by
  by_cases hrun : s.running = []
  · rw [step_of_running_nil s c hrun]
    exact h
  · rw [step_of_running_ne s c hrun]
    have hlen : 0 < s.running.length := List.length_pos.mpr hrun
    have hilt : c % s.running.length < s.running.length := Nat.mod_lt _ hlen
    obtain ⟨t, R, hperm, hgets⟩ :
        ∃ t R, (t :: R).Perm s.running ∧
          startNext (finishOne
              { s with running := s.running.eraseIdx (c % s.running.length) }
              (s.running.getD (c % s.running.length) ⟨0, .realOk⟩)) =
            startNext (finishOne { s with running := R } t) :=
      ⟨_, _, getD_cons_eraseIdx_perm _ _ hilt _, rfl⟩
    rw [hgets]
    have hlenR : R.length + 1 = s.running.length := by
      have := hperm.length_eq
      simpa using this
    have hrealR : realCount R + (if t.kind.isReal then 1 else 0) = realCount s.running := by
      have h1 : realCount (t :: R) = realCount s.running := hperm.countP_eq _
      rw [realCount_cons] at h1
      exact h1
    have hcons := h.conserve
    have htot := h.total
    rcases hq : s.queue with _ | ⟨q, qs⟩
    · rw [startNext_nil _ (by simp [finishOne, hq])]
      refine ⟨?_, ?_, ?_, ?_, ?_, ?_, ?_, ?_, ?_⟩
      · have := h.run_le
        simp only [finishOne]
        omega
      · intro hx
        simp [finishOne, hq] at hx
      · have := h.started_queue
        rw [hq] at this
        simpa [finishOne, hq] using this
      · rw [hq] at hcons
        simp only [finishOne, hq]
        by_cases htr : t.kind.isReal = true
        · rw [if_pos htr] at hrealR ⊢
          simp only [realCount, List.countP_nil] at hrealR hcons ⊢
          omega
        · rw [if_neg htr] at hrealR ⊢
          simp only [realCount, List.countP_nil] at hrealR hcons ⊢
          omega
      · simpa [finishOne] using htot
      · have hp := h.perm
        rw [hq] at hp
        simp only [finishOne, hq, List.map_nil, List.append_nil, List.map_append,
          List.map_cons] at hp ⊢
        refine List.Perm.trans ?_ hp
        rw [← Multiset.coe_eq_coe]
        have h1 : (↑(s.running.map Task.id) : Multiset Nat) = ↑(t.id :: R.map Task.id) :=
          (Multiset.coe_eq_coe.mpr ((hperm.map Task.id))).symm
        simp only [← Multiset.coe_add] at h1 ⊢
        rw [h1]
        simp only [← Multiset.cons_coe, ← Multiset.singleton_add, ← Multiset.coe_add]
        abel
      · intro h1
        have hiff := h.flag_iff (by simpa [finishOne] using h1)
        rw [hq] at hcons
        simp only [finishOne]
        by_cases hfin :
            (if t.kind.isReal = true then s.finishedCount + 1 else s.finishedCount) =
              s.taskCount
        · rw [if_pos hfin]
          simp [hfin]
        · rw [if_neg hfin]
          simp only [hfin, iff_false]
          intro hw
          have hfc := hiff.mp hw
          by_cases htr : t.kind.isReal = true
          · rw [if_pos htr] at hfin hrealR
            simp only [realCount, List.countP_nil] at hrealR hcons
            omega
          · rw [if_neg htr] at hfin
            exact hfin hfc
      · have hfe := h.flag_eq
        simp only [finishOne]
        by_cases hfin :
            (if t.kind.isReal = true then s.finishedCount + 1 else s.finishedCount) =
              s.taskCount
        · rw [if_pos hfin, if_pos hfin]
          simp
        · rw [if_neg hfin, if_neg hfin]
          exact hfe
      · have := h.records_eq
        simp only [finishOne, List.filterMap_append, this]
        cases herr : t.kind.errRecord <;> simp [herr, Option.toList]
    · rw [startNext_cons _ q qs (by simp [finishOne, hq])]
      refine ⟨?_, ?_, ?_, ?_, ?_, ?_, ?_, ?_, ?_⟩
      · have := h.run_le
        simp only [finishOne, List.length_append, List.length_cons, List.length_nil]
        omega
      · intro _
        simp [finishOne]
      · have := h.started_queue
        rw [hq] at this
        simp only [finishOne, List.map_cons] at this ⊢
        rw [List.append_assoc]
        simpa using this
      · rw [hq, realCount_cons] at hcons
        simp only [finishOne, realCount_append, realCount_cons]
        by_cases htr : t.kind.isReal = true
        · rw [if_pos htr] at hrealR ⊢
          simp only [realCount, List.countP_nil] at hrealR hcons ⊢
          omega
        · rw [if_neg htr] at hrealR ⊢
          simp only [realCount, List.countP_nil] at hrealR hcons ⊢
          omega
      · simpa [finishOne] using htot
      · have hp := h.perm
        rw [hq] at hp
        simp only [finishOne, List.map_append, List.map_cons, List.map_nil] at hp ⊢
        refine List.Perm.trans ?_ hp
        rw [← Multiset.coe_eq_coe]
        have h1 : (↑(s.running.map Task.id) : Multiset Nat) = ↑(t.id :: R.map Task.id) :=
          (Multiset.coe_eq_coe.mpr ((hperm.map Task.id))).symm
        simp only [← Multiset.coe_add] at h1 ⊢
        rw [h1]
        simp only [← Multiset.cons_coe, ← Multiset.singleton_add, ← Multiset.coe_add]
        abel
      · intro h1
        have hiff := h.flag_iff (by simpa [finishOne] using h1)
        rw [hq, realCount_cons] at hcons
        simp only [finishOne]
        by_cases hfin :
            (if t.kind.isReal = true then s.finishedCount + 1 else s.finishedCount) =
              s.taskCount
        · rw [if_pos hfin]
          simp [hfin]
        · rw [if_neg hfin]
          simp only [hfin, iff_false]
          intro hw
          have hfc := hiff.mp hw
          by_cases htr : t.kind.isReal = true
          · rw [if_pos htr] at hfin hrealR
            simp only [realCount, List.countP_nil] at hrealR hcons
            omega
          · rw [if_neg htr] at hfin
            exact hfin hfc
      · have hfe := h.flag_eq
        simp only [finishOne]
        by_cases hfin :
            (if t.kind.isReal = true then s.finishedCount + 1 else s.finishedCount) =
              s.taskCount
        · rw [if_pos hfin, if_pos hfin]
          simp
        · rw [if_neg hfin, if_neg hfin]
          exact hfe
      · have := h.records_eq
        simp only [finishOne, List.filterMap_append, this]
        cases herr : t.kind.errRecord <;> simp [herr, Option.toList]

/-- The invariant holds in the initial state. -/
theorem init_inv (tasks : List Task) (jobs : Nat) (hj : 1 ≤ jobs) :
    Inv tasks jobs (initState tasks jobs) := by
  refine ⟨?_, ?_, ?_, ?_, rfl, ?_, ?_, rfl, rfl⟩
  · simp only [initState, List.length_take]
    exact min_le_left _ _
  · intro hq hr
    simp only [initState] at hq hr
    have h1 : jobs < tasks.length := by
      by_contra hcon
      push_neg at hcon
      exact hq (List.drop_eq_nil_of_le hcon)
    have h2 := List.length_take jobs tasks
    rw [hr] at h2
    simp only [List.length_nil] at h2
    omega
  · simp only [initState]
    rw [← List.map_append, List.take_append_drop]
  · simp only [initState]
    have := realCount_append (tasks.take jobs) (tasks.drop jobs)
    rw [List.take_append_drop] at this
    omega
  · simp only [initState, List.map_nil, List.nil_append]
    rw [← List.map_append, List.take_append_drop]
  · intro h1
    simp only [initState] at h1 ⊢
    constructor
    · intro hw
      exact absurd hw (by omega)
    · intro hfc
      omega

/-- The invariant is preserved by any schedule. -/
theorem run_inv {tasks : List Task} {jobs : Nat} (sched : List Nat) {s : SchedState}
    (h : Inv tasks jobs s) : Inv tasks jobs (run s sched) := by
  induction sched generalizing s with
  | nil => exact h
  | cons c cs ih => exact ih (step_inv h c)

/-- Each iteration with a nonempty running set finishes exactly one task
net: the total of pending and running tasks drops by one. -/
theorem step_measure (s : SchedState) (c : Nat) (h : s.running ≠ []) :
    (step s c).running.length + (step s c).queue.length + 1 =
      s.running.length + s.queue.length := by
  rw [step_of_running_ne s c h]
  have hlen : 0 < s.running.length := List.length_pos.mpr h
  have hilt : c % s.running.length < s.running.length := Nat.mod_lt _ hlen
  have hlenR : (s.running.eraseIdx (c % s.running.length)).length + 1 =
      s.running.length := by
    have := (getD_cons_eraseIdx_perm s.running _ hilt
      (⟨0, .realOk⟩ : Task)).length_eq
    simpa using this
  rcases hq : s.queue with _ | ⟨q, qs⟩
  · rw [startNext_nil _ (by simp [finishOne, hq])]
    simp only [finishOne, hq, List.length_nil]
    omega
  · rw [startNext_cons _ q qs (by simp [finishOne, hq])]
    simp only [finishOne, hq, List.length_append, List.length_cons, List.length_nil]
    omega

/-- With at least as many iterations as tasks, the loop drains both the
running set and the queue. -/
theorem run_drains {tasks : List Task} {jobs : Nat} (sched : List Nat) {s : SchedState}
    (h : Inv tasks jobs s)
    (hm : s.running.length + s.queue.length ≤ sched.length) :
    (run s sched).running = [] ∧ (run s sched).queue = [] := by
  induction sched generalizing s with
  | nil =>
    simp only [List.length_nil, Nat.le_zero] at hm
    simp only [run]
    constructor
    · exact List.eq_nil_of_length_eq_zero (by omega)
    · exact List.eq_nil_of_length_eq_zero (by omega)
  | cons c cs ih =>
    by_cases hr : s.running = []
    · have hqnil : s.queue = [] := by
        by_contra hq
        exact (h.queue_run hq) hr
      simp only [run]
      rw [step_of_running_nil s c hr]
      exact ih h (by simp [hr, hqnil])
    · simp only [run]
      have hstep := step_measure s c hr
      refine ih (step_inv h c) ?_
      simp only [List.length_cons] at hm
      omega

/-- Completing the future of task t writes the completion flag,
incrementing the write count, exactly when the finished-real-job count
after the completion equals task_count. -/
theorem finishOne_flagWrites_iff (s : SchedState) (t : Task) :
    ((finishOne s t).flagWrites = s.flagWrites + 1 ↔
      (finishOne s t).finishedCount = s.taskCount) := by
  simp only [finishOne]
  by_cases hfin :
      (if t.kind.isReal = true then s.finishedCount + 1 else s.finishedCount) =
        s.taskCount
  · rw [if_pos hfin]
    simp [hfin]
  · rw [if_neg hfin]
    constructor
    · intro hw
      omega
    · intro hfc
      exact absurd hfc hfin

/-- The per-iteration version of the flag-write condition. -/
theorem step_flag_writes (s : SchedState) (c : Nat) (h : s.running ≠ []) :
    ((step s c).flagWrites = s.flagWrites + 1 ↔
      (step s c).finishedCount = s.taskCount) := by
  rw [step_of_running_ne s c h]
  rcases hq : s.queue with _ | ⟨q, qs⟩
  · rw [startNext_nil _ (by simp [finishOne, hq])]
    exact finishOne_flagWrites_iff _ _
  · rw [startNext_cons _ q qs (by simp [finishOne, hq])]
    exact finishOne_flagWrites_iff _ _

/-- Folding cons over a range builds the reversed mapped range in front of
the accumulator; the shape of buildQueue's push_front loop. -/
theorem range_foldl_cons {α : Type} (f : Nat → α) (n : Nat) (acc : List α) :
    (List.range n).foldl (fun q i => f i :: q) acc =
      ((List.range n).map f).reverse ++ acc := by
  induction n with
  | zero => rfl
  | succ m ih =>
    rw [List.range_succ, List.foldl_append, List.map_append, List.reverse_append, ih]
    simp

/-! ## Helper lemmas for the size-string parser -/

theorem toLower_of_isDigit (c : Char) (h : c.isDigit = true) : c.toLower = c := by
  simp only [Char.isDigit, Bool.and_eq_true, decide_eq_true_eq] at h
  have h2 : c.val.toNat ≤ 57 := h.2
  simp only [Char.toLower, Char.toNat]
  rw [if_neg]
  omega

theorem map_toLower_digits (ds : List Char) (h : allDigits ds = true) :
    ds.map Char.toLower = ds := by
  induction ds with
  | nil => rfl
  | cons c cs ih =>
    simp only [allDigits, List.all_cons, Bool.and_eq_true] at h
    simp only [List.map_cons, toLower_of_isDigit c h.1, ih h.2]

theorem takeDigits_all (ds : List Char) (h : allDigits ds = true) :
    takeDigits ds = (ds, []) := by
  induction ds with
  | nil => rfl
  | cons c cs ih =>
    simp only [allDigits, List.all_cons, Bool.and_eq_true] at h
    simp only [takeDigits, h.1, if_true, ih h.2]

theorem parseNumber_digits (ds : List Char) (hne : ds ≠ []) (h : allDigits ds = true) :
    parseNumber ds = some (digitsVal ds, 1) := by
  cases ds with
  | nil => exact absurd rfl hne
  | cons c cs =>
    have ht := takeDigits_all (c :: cs) h
    simp only [parseNumber, ht]

theorem suffixFactor_of_isDigit (c : Char) (h : c.isDigit = true) :
    suffixFactor c = none := by
  simp only [Char.isDigit, Bool.and_eq_true, decide_eq_true_eq] at h
  have hb : c ≠ 'b' := by intro he; subst he; simp [Char.le_def] at h
  have hk : c ≠ 'k' := by intro he; subst he; simp [Char.le_def] at h
  have hm : c ≠ 'm' := by intro he; subst he; simp [Char.le_def] at h
  have hg : c ≠ 'g' := by intro he; subst he; simp [Char.le_def] at h
  have ht : c ≠ 't' := by intro he; subst he; simp [Char.le_def] at h
  simp [suffixFactor, hb, hk, hm, hg, ht]

/-! ## C10: minimum-input-size semantics at the public interface -/

/-- C10: parse_size accepts a decimal number with an optional
case-insensitive suffix b, k, m, g or t, multiplying by 1, 2^10, 2^20,
2^30 or 2^40 respectively (stated here for whole-number inputs, where the
f64 arithmetic of the source is exact); a missing suffix is treated as
megabytes (2^20); input_too_small size (some s) holds iff size is strictly
below parse_size s, so a file exactly at the threshold is not skipped; and
input_too_small size none is always false. -/
theorem minimum_input_size_semantics
    (ds : List Char) (c : Char) (factor : Nat) (s : List Char) (n size : Nat) :
    (ds ≠ [] → allDigits ds = true → suffixFactor c.toLower = some factor →
      parse_size (ds ++ [c]) = some (factor * digitsVal ds)) ∧
    (ds ≠ [] → allDigits ds = true → parse_size ds = some (2 ^ 20 * digitsVal ds)) ∧
    (parse_size s = some n → input_too_small size (some s) = some (decide (size < n))) ∧
    (parse_size s = some n → input_too_small n (some s) = some false) ∧
    input_too_small size none = some false := by
  refine ⟨?_, ?_, ?_, ?_, rfl⟩
  · intro hne hd hc
    simp only [parse_size, List.map_append, map_toLower_digits ds hd, List.map_cons,
      List.map_nil, List.getLast?_concat, List.dropLast_concat, hc,
      parseNumber_digits ds hne hd, Nat.div_one]
  · intro hne hd
    simp only [parse_size, map_toLower_digits ds hd]
    obtain ⟨d, hd'⟩ : ∃ d, ds.getLast? = some d := by
      cases h : ds.getLast? with
      | none => rw [← List.getLast?_isSome, h] at hne; simp at hne
      | some d => exact ⟨d, rfl⟩
    have hdmem : d ∈ ds := List.mem_of_mem_getLast? (by rw [hd']; rfl)
    have hddig : d.isDigit = true := List.all_eq_true.mp hd d hdmem
    simp only [hd', suffixFactor_of_isDigit d hddig, parseNumber_digits ds hne hd,
      Nat.div_one]
  · intro hp
    simp only [input_too_small, hp, Option.map_some']
  · intro hp
    simp only [input_too_small, hp, Option.map_some', decide_eq_false (lt_irrefl n)]

/-- Witness for C10 at concrete inputs: the string 5K parses as
5 * 2^10 = 5120 bytes, and a 5119-byte input is below the 5k threshold
while a 5120-byte input is not. -/
theorem minimum_input_size_semantics_witness :
    parse_size (['5'] ++ ['K']) = some (2 ^ 10 * digitsVal ['5']) ∧
    input_too_small 5119 (some ['5', 'k']) = some true ∧
    input_too_small 5120 (some ['5', 'k']) = some false := by
  have h1 := (minimum_input_size_semantics ['5'] 'K' (2 ^ 10) ['5', 'k'] 5120 5119).1
      (by decide) (by decide) (by decide)
  have h2 := (minimum_input_size_semantics ['5'] 'K' (2 ^ 10) ['5', 'k'] 5120 5119).2.2.1
      (by decide)
  have h3 := (minimum_input_size_semantics ['5'] 'K' (2 ^ 10) ['5', 'k'] 5120 5119).2.2.2.1
      (by decide)
  exact ⟨h1, by simpa using h2, h3⟩

/-! ## C6: size validation boundaries and percent-ratio policy -/

/-- C6: an output exactly at the 300-byte minimum threshold is kept while
one byte under is deleted with a warning; with a configured expected size
the ratio is size * 100 / original in integer arithmetic, a ratio above the
target warns larger-than-expected or deletes under delete_too_large, a
ratio below one third of the target (integer floor) warns
much-smaller-than-expected, and ratio 74 against target 75 produces no
warning. -/
theorem check_encoded_size_policy (orig size expected : Nat) (dtl : Bool) :
    (check_encoded_size none dtl orig 300 = ⟨[], false⟩) ∧
    (check_encoded_size none dtl orig 299 = ⟨[.deletingTinyOutput 299], true⟩) ∧
    (300 ≤ size → expected < size * 100 / orig →
      check_encoded_size (some expected) dtl orig size =
        if dtl then ⟨[.deletingTooLarge (size * 100 / orig)], true⟩
        else ⟨[.largerThanExpected (size * 100 / orig)], false⟩) ∧
    (300 ≤ size → size * 100 / orig < expected / 3 →
      check_encoded_size (some expected) dtl orig size =
        ⟨[.muchSmallerThanExpected (size * 100 / orig)], false⟩) ∧
    (check_encoded_size (some 75) dtl 10000 7400 = ⟨[], false⟩) ∧
    (check_encoded_size (some 75) dtl 10000 2400 =
      ⟨[.muchSmallerThanExpected 24], false⟩) := by
  refine ⟨by simp [check_encoded_size], by simp [check_encoded_size], ?_, ?_, ?_, ?_⟩
  · intro h300 hgt
    simp only [check_encoded_size, if_neg (by omega : ¬ (size < 300)), if_pos hgt]
  · intro h300 hlt
    have hle : ¬ (expected < size * 100 / orig) := by
      have : expected / 3 ≤ expected := Nat.div_le_self expected 3
      omega
    simp only [check_encoded_size, if_neg (by omega : ¬ (size < 300)), if_neg hle,
      if_pos hlt]
  · cases dtl <;> simp [check_encoded_size]
  · cases dtl <;> simp [check_encoded_size]

/-- Witness for C6 at concrete inputs: with target 75 and delete_too_large
off, a 7600-byte output of a 10000-byte input (ratio 76) draws the
larger-than-expected warning and is kept. -/
theorem check_encoded_size_policy_witness :
    check_encoded_size (some 75) false 10000 7600 =
      ⟨[.largerThanExpected 76], false⟩ := by
  have h := (check_encoded_size_policy 10000 7600 75 false).2.2.1 (by decide) (by decide)
  simpa using h

/-! ## C3: atomic commit protocol -/

/-- C3 counterexample: a job whose engine exits successfully while
overwrite is disabled and the final path exists (the race the claim's first
clause describes) fails after spawn and before any rename, yet the final
output path exists — refuting the claim's clause that a job failing after
spawn but before the rename leaves the final path nonexistent. -/
theorem atomic_commit_counterexample :
    ((jobFromSpawn false false none 1000 true 500
        ⟨some (.complete 900), none⟩).err.isSome = true) ∧
    ((jobFromSpawn false false none 1000 true 500
        ⟨some (.complete 900), none⟩).renamed = false) ∧
    ¬ ((jobFromSpawn false false none 1000 true 500
        ⟨some (.complete 900), none⟩).fs.finalFile = none) := by
  decide

/-- C3 amended: on successful exit with overwrite disabled and the final
path existing, the job fails with the conflict error, no rename happens and
the final path is untouched; on successful exit otherwise the partial path
is renamed onto the final path; a job that fails after spawn and before the
rename leaves the final path nonexistent whenever the final path was absent
at spawn (which the pre-start check guarantees when overwrite is disabled,
the conflict case being the sole exception); and the final path never holds
an incomplete file. -/
theorem atomic_commit_protocol (overwrite dtl : Bool) (expected : Option Nat)
    (orig outSize : Nat) (success : Bool) (fs : FS) :
    (success = true → overwrite = false → fs.finalFile.isSome = true →
      (jobFromSpawn overwrite dtl expected orig success outSize fs).err =
          some .conflictExists ∧
        (jobFromSpawn overwrite dtl expected orig success outSize fs).renamed = false ∧
        (jobFromSpawn overwrite dtl expected orig success outSize fs).fs.finalFile =
          fs.finalFile) ∧
    (success = true → (overwrite = true ∨ fs.finalFile = none) →
      (jobFromSpawn overwrite dtl expected orig success outSize fs).renamed = true ∧
        (jobFromSpawn overwrite dtl expected orig success outSize fs).fs.partFile =
          none) ∧
    (fs.finalFile = none →
      (jobFromSpawn overwrite dtl expected orig success outSize fs).err.isSome = true →
      (jobFromSpawn overwrite dtl expected orig success outSize fs).fs.finalFile =
        none) ∧
    ((∀ sz, fs.finalFile ≠ some (.incomplete sz)) →
      ∀ sz, (jobFromSpawn overwrite dtl expected orig success outSize fs).fs.finalFile ≠
        some (.incomplete sz)) := by
  refine ⟨?_, ?_, ?_, ?_⟩
  · intro hs ho hf
    subst hs; subst ho
    simp [jobFromSpawn, runEngine, afterExit, hf]
  · intro hs hcase
    subst hs
    rcases hcase with h | h
    · subst h
      simp [jobFromSpawn, runEngine, afterExit, sizeValidate]
    · simp [jobFromSpawn, runEngine, afterExit, sizeValidate, h]
  · intro hf herr
    cases success with
    | true =>
      simp [jobFromSpawn, runEngine, afterExit, sizeValidate, hf] at herr
    | false =>
      simp [jobFromSpawn, runEngine, afterExit, sizeValidate, hf]
  · intro hni sz
    cases success with
    | true =>
      cases hfin : fs.finalFile with
      | none =>
        simp [jobFromSpawn, runEngine, afterExit, sizeValidate, hfin]
      | some f =>
        cases overwrite with
        | false =>
          simp [jobFromSpawn, runEngine, afterExit, sizeValidate, hfin]
          intro hcon
          subst hcon
          exact hni sz hfin
        | true =>
          simp [jobFromSpawn, runEngine, afterExit, sizeValidate, hfin]
    | false =>
      cases hfin : fs.finalFile with
      | none => simp [jobFromSpawn, runEngine, afterExit, sizeValidate, hfin]
      | some f =>
        cases f with
        | complete s =>
          simp [jobFromSpawn, runEngine, afterExit, sizeValidate, hfin]
        | incomplete s => exact absurd hfin (hni s)

/-- Witness for C3 at concrete inputs: a successful engine exit with
overwrite disabled and no pre-existing final file renames the partial file
onto the final path, leaving no partial file behind. -/
theorem atomic_commit_protocol_witness :
    (jobFromSpawn false false none 1000 true 500 ⟨none, none⟩).renamed = true ∧
    (jobFromSpawn false false none 1000 true 500 ⟨none, none⟩).fs.partFile = none := by
  exact (atomic_commit_protocol false false none 1000 500 true ⟨none, none⟩).2.1
    rfl (Or.inr rfl)

/-! ## C7: size validation after exit -/

/-- C7 counterexample: after a failed engine exit with no output file, the
code still invokes check_encoded_size, whose get_file_size failure becomes
the job's error — refuting the claim that no size-validation action or
error is produced for a job whose output does not exist after exit. -/
theorem size_validation_counterexample :
    (jobFromSpawn false false none 1000 false 500 ⟨none, none⟩).err =
      some .noOutputSize := by
  decide

/-- C7 amended: size validation is invoked after every engine exit except
the success-conflict bail; on the success-rename path it runs on the
renamed output; on the failure path with no output file its
cannot-read-file-size failure becomes the job's error, so a missing output
does produce an error; on the failure path with an existing output file
(possible only under overwrite) it runs on that file. -/
theorem size_validation_after_exit (overwrite dtl : Bool) (expected : Option Nat)
    (orig outSize : Nat) (success : Bool) (fs : FS) :
    (success = true → overwrite = false → fs.finalFile.isSome = true →
      (jobFromSpawn overwrite dtl expected orig success outSize fs).msgs = [] ∧
        (jobFromSpawn overwrite dtl expected orig success outSize fs).err =
          some .conflictExists) ∧
    (success = true → (overwrite = true ∨ fs.finalFile = none) →
      (jobFromSpawn overwrite dtl expected orig success outSize fs).msgs =
          (check_encoded_size expected dtl orig outSize).msgs.map JobMsg.size ∧
        (jobFromSpawn overwrite dtl expected orig success outSize fs).err = none) ∧
    (success = false → fs.finalFile = none →
      (jobFromSpawn overwrite dtl expected orig success outSize fs).err =
          some .noOutputSize ∧
        (jobFromSpawn overwrite dtl expected orig success outSize fs).msgs =
          [.encodingError]) ∧
    (success = false → ∀ f, fs.finalFile = some f →
      (jobFromSpawn overwrite dtl expected orig success outSize fs).msgs =
          .encodingError ::
            (check_encoded_size expected dtl orig f.size).msgs.map JobMsg.size ∧
        (jobFromSpawn overwrite dtl expected orig success outSize fs).err = none) := by
  refine ⟨?_, ?_, ?_, ?_⟩
  · intro hs ho hf
    subst hs; subst ho
    simp [jobFromSpawn, runEngine, afterExit, hf]
  · intro hs hcase
    subst hs
    rcases hcase with h | h
    · subst h
      simp [jobFromSpawn, runEngine, afterExit, sizeValidate, FileData.size]
    · simp [jobFromSpawn, runEngine, afterExit, sizeValidate, FileData.size, h]
  · intro hs hf
    subst hs
    simp [jobFromSpawn, runEngine, afterExit, sizeValidate, hf]
  · intro hs f hf
    subst hs
    simp [jobFromSpawn, runEngine, afterExit, sizeValidate, hf]

/-- Witness for C7 at concrete inputs: a successful exit with no
pre-existing final file runs size validation on the renamed 500-byte
output, keeping it without warnings. -/
theorem size_validation_after_exit_witness :
    (jobFromSpawn false false none 1000 true 500 ⟨none, none⟩).msgs =
        (check_encoded_size none false 1000 500).msgs.map JobMsg.size ∧
    (jobFromSpawn false false none 1000 true 500 ⟨none, none⟩).err = none := by
  exact (size_validation_after_exit false false none 1000 500 true ⟨none, none⟩).2.1
    rfl (Or.inr rfl)

/-! ## C8: refuse to start when the output already exists -/

/-- C8: with overwrite disabled and the final or partial output path
pre-existing, the job emits already-exists warnings, does not spawn the
engine and does not fail the batch; when only the final output pre-exists
(its parent directory therefore already being a directory), exactly one
warning is emitted, no directory is created and nothing is written. -/
theorem refuse_when_output_exists
    (parentExists finalExists partExists noop tooSmall : Bool)
    (hex : finalExists = true ∨ partExists = true) :
    ((preStart false true parentExists finalExists partExists noop tooSmall).spawned =
        false ∧
      (preStart false true parentExists finalExists partExists noop tooSmall).warnings ≠
        [] ∧
      (preStart false true parentExists finalExists partExists noop tooSmall).failed =
        false ∧
      (preStart false true parentExists finalExists partExists noop tooSmall).createdDir =
        false) ∧
    (finalExists = true → partExists = false →
      preStart false true parentExists finalExists partExists noop tooSmall =
        ⟨[.outputExists], false, false, false⟩) := by
  constructor
  · rcases hex with h | h
    · subst h; cases partExists <;> simp [preStart]
    · subst h; cases finalExists <;> simp [preStart]
  · intro h1 h2
    subst h1; subst h2
    simp [preStart]

/-- Witness for C8 at concrete inputs: overwrite disabled and only the
final output pre-existing yields exactly one already-exists warning, no
spawn, no directory creation and no batch failure. -/
theorem refuse_when_output_exists_witness :
    preStart false true true true false false false =
      ⟨[.outputExists], false, false, false⟩ := by
  exact (refuse_when_output_exists true true false false false (Or.inl rfl)).2 rfl rfl

/-! ## C5: wait-pseudo-job iteration behavior -/

/-- C5: on each iteration the wait-pseudo-job of rank r returns immediately
when the completion flag is set; otherwise, with
too_many = snapshot count - (allowed_concurrency - 1 - r), when
too_many is at most zero it re-snapshots and either returns (new snapshot a
subset of the prior one) or adopts the new snapshot and repeats, and when
too_many is positive it repeats with the prior snapshot; the subset test is
set containment of process ids. -/
theorem wait_pseudo_job_iteration (jobs r : Nat) (hr : r < jobs)
    (snap newSnap : List Nat) (flag : Bool) (fs : List Bool)
    (snaps rest : List (List Nat)) :
    (wait_for_ffmpeg jobs r snap (true :: fs) snaps = some .finishedFlag) ∧
    (flag = false →
      ((snap.length : Int) - ((jobs : Int) - 1 - (r : Int)) ≤ 0 →
        (pidSubset newSnap snap = true →
          wait_for_ffmpeg jobs r snap (flag :: fs) (newSnap :: rest) =
            some .stableCount) ∧
        (pidSubset newSnap snap = false →
          wait_for_ffmpeg jobs r snap (flag :: fs) (newSnap :: rest) =
            wait_for_ffmpeg jobs r newSnap fs rest)) ∧
      (0 < (snap.length : Int) - ((jobs : Int) - 1 - (r : Int)) →
        wait_for_ffmpeg jobs r snap (flag :: fs) snaps =
          wait_for_ffmpeg jobs r snap fs snaps)) ∧
    (pidSubset newSnap snap = true ↔ ∀ x ∈ newSnap, x ∈ snap) := by
  have hcast : ((jobs - 1 - r : Nat) : Int) = (jobs : Int) - 1 - (r : Int) := by
    omega
  refine ⟨by simp [wait_for_ffmpeg], ?_, ?_⟩
  · intro hflag
    subst hflag
    constructor
    · intro hle
      constructor
      · intro hsub
        simp [wait_for_ffmpeg, hcast, hle, hsub]
      · intro hsub
        simp [wait_for_ffmpeg, hcast, hle, hsub]
    · intro hgt
      simp [wait_for_ffmpeg, hcast, not_le.mpr hgt]
  · simp [pidSubset, List.all_eq_true]

/-- Witness for C5 at concrete inputs: with jobs = 2 and rank 0, a set
completion flag ends the loop at once, and with the flag clear, one
external ffmpeg (so too_many = 0) and an unchanged re-snapshot, the loop
ends with a stable count. -/
theorem wait_pseudo_job_iteration_witness :
    wait_for_ffmpeg 2 0 [5] (true :: []) [] = some .finishedFlag ∧
    wait_for_ffmpeg 2 0 [5] (false :: []) ([5] :: []) = some .stableCount := by
  have h := wait_pseudo_job_iteration 2 0 (by decide) [5] [5] false [] [] []
  exact ⟨h.1, ((h.2.1 rfl).1 (by decide)).1 (by decide)⟩

/-! ## C1: worker-pool invariants -/

/-- C1: for every task batch, concurrency limit and finishing schedule:
at no instant do more than get_jobs() tasks (real plus wait-pseudo-jobs)
run concurrently; tasks start FIFO in queue (discovery) order — the started
ids are always the queue's ids up to the first still-pending one; exactly
one queued task is started at a completion while the queue is nonempty;
and with at least as many completions as tasks the pool drains: every task
was started, every real job reached a terminal outcome
(finished_encode_count equals the real-job total), and the completed tasks
are exactly the batch. -/
theorem worker_pool_invariants (tasks : List Task) (jobs : Nat) (sched : List Nat)
    (hj : 1 ≤ jobs) :
    (run (initState tasks jobs) sched).running.length ≤ jobs ∧
    (run (initState tasks jobs) sched).startedIds ++
        ((run (initState tasks jobs) sched).queue.map Task.id) = tasks.map Task.id ∧
    (∀ c q qs, (run (initState tasks jobs) sched).queue = q :: qs →
      (run (initState tasks jobs) sched).running ≠ [] →
      (step (run (initState tasks jobs) sched) c).startedIds =
        (run (initState tasks jobs) sched).startedIds ++ [q.id]) ∧
    (tasks.length ≤ sched.length →
      (run (initState tasks jobs) sched).running = [] ∧
      (run (initState tasks jobs) sched).queue = [] ∧
      (run (initState tasks jobs) sched).startedIds = tasks.map Task.id ∧
      (run (initState tasks jobs) sched).finishedCount = realCount tasks ∧
      ((run (initState tasks jobs) sched).finished.map Task.id).Perm
        (tasks.map Task.id)) := by
  have hinv := run_inv sched (init_inv tasks jobs hj)
  have hm0 : (initState tasks jobs).running.length +
      (initState tasks jobs).queue.length = tasks.length := by
    simp only [initState]
    rw [← List.length_append, List.take_append_drop]
  refine ⟨hinv.run_le, hinv.started_queue, ?_, ?_⟩
  · intro c q qs hq hr
    rw [step_of_running_ne _ c hr]
    rw [startNext_cons _ q qs (by simp [finishOne, hq])]
    simp [finishOne]
  · intro hlen
    obtain ⟨hrn, hqn⟩ := run_drains sched (init_inv tasks jobs hj) (by omega)
    refine ⟨hrn, hqn, ?_, ?_, ?_⟩
    · have := hinv.started_queue
      rw [hqn] at this
      simpa using this
    · have hc := hinv.conserve
      have ht := hinv.total
      rw [hrn, hqn] at hc
      simp only [realCount, List.countP_nil] at hc ht ⊢
      omega
    · have hp := hinv.perm
      rw [hrn, hqn] at hp
      simpa using hp

/-- Witness for C1 at a concrete batch: one real job, limit 1, one
completion — the pool drains, the job started and reached a terminal
outcome. -/
theorem worker_pool_invariants_witness :
    (run (initState [⟨0, TaskKind.realOk⟩] 1) [0]).running = [] ∧
    (run (initState [⟨0, TaskKind.realOk⟩] 1) [0]).queue = [] ∧
    (run (initState [⟨0, TaskKind.realOk⟩] 1) [0]).startedIds =
      [⟨0, TaskKind.realOk⟩].map Task.id ∧
    (run (initState [⟨0, TaskKind.realOk⟩] 1) [0]).finishedCount =
      realCount [⟨0, TaskKind.realOk⟩] ∧
    ((run (initState [⟨0, TaskKind.realOk⟩] 1) [0]).finished.map Task.id).Perm
      ([⟨0, TaskKind.realOk⟩].map Task.id) :=
  (worker_pool_invariants [⟨0, TaskKind.realOk⟩] 1 [0] (by decide)).2.2.2 (by decide)

/-! ## C2: completion-flag writes -/

/-- C2 counterexample: with one real job and one wait-pseudo-job running
under limit 2, the real job finishes first, setting the flag; the wait
task's later completion re-writes it — two writes in one batch, refuting
'written at most once'. -/
theorem completion_flag_counterexample :
    (run (initState [⟨1, TaskKind.wait 0⟩, ⟨0, TaskKind.realOk⟩] 2) [1, 0]).flagWrites =
      2 := by
  decide

/-- C2 amended: the completion flag is monotone — it reads true exactly
once at least one write has happened, every write writes true — and a
write happens at a task completion precisely when the finished-real-job
count equals the real-job total, so the first write is at the last real
job's completion; but wait-pseudo-jobs completing afterwards write it
again. -/
theorem completion_flag_amended (tasks : List Task) (jobs : Nat) (sched : List Nat)
    (hj : 1 ≤ jobs) (hreal : 1 ≤ realCount tasks) :
    ((run (initState tasks jobs) sched).flag =
      decide (1 ≤ (run (initState tasks jobs) sched).flagWrites)) ∧
    (1 ≤ (run (initState tasks jobs) sched).flagWrites ↔
      (run (initState tasks jobs) sched).finishedCount = realCount tasks) ∧
    (∀ c, (run (initState tasks jobs) sched).running ≠ [] →
      ((step (run (initState tasks jobs) sched) c).flagWrites =
          (run (initState tasks jobs) sched).flagWrites + 1 ↔
        (step (run (initState tasks jobs) sched) c).finishedCount = realCount tasks)) := by
  have hinv := run_inv sched (init_inv tasks jobs hj)
  have htot := hinv.total
  refine ⟨hinv.flag_eq, ?_, ?_⟩
  · rw [← htot]
    exact hinv.flag_iff (by omega)
  · intro c hr
    rw [← htot]
    exact step_flag_writes _ c hr

/-- Witness for C2 at a concrete batch: after the single real job of a
limit-1 batch completes, the write count is positive iff the finished
count equals the total — and it does. -/
theorem completion_flag_amended_witness :
    (1 ≤ (run (initState [⟨0, TaskKind.realOk⟩] 1) [0]).flagWrites ↔
      (run (initState [⟨0, TaskKind.realOk⟩] 1) [0]).finishedCount =
        realCount [⟨0, TaskKind.realOk⟩]) :=
  (completion_flag_amended [⟨0, TaskKind.realOk⟩] 1 [0] (by decide) (by decide)).2.1

/-! ## C4: slow-start decoy wait tasks -/

/-- C4 counterexample: with slow-start and get_jobs() = 2, the queue for a
single real job holds two wait-pseudo-jobs, not at most
allowed_concurrency() - 1 = 1. -/
theorem slow_start_counterexample :
    ¬ ((buildQueue true 2 [⟨0, TaskKind.realOk⟩]).countP
        (fun t => !t.kind.isReal) ≤ 2 - 1) := by
  decide

/-- C4 amended: with slow-start enabled, exactly get_jobs() wait-pseudo-jobs
are enqueued ahead of the real jobs — ranks 0 to jobs-1, each rank once,
in descending order at the front — so the initial fill of the pool (the
first get_jobs() queue entries) consists of wait-pseudo-jobs only and no
real job starts before a wait task finishes; with slow-start disabled no
wait-pseudo-job is enqueued. -/
theorem slow_start_wait_tasks (jobs : Nat) (reals : List Task)
    (hreals : ∀ t ∈ reals, t.kind.isReal = true) :
    (buildQueue true jobs reals =
      ((List.range jobs).map
        (fun i => ({ id := reals.length + i, kind := TaskKind.wait i } : Task))).reverse
        ++ reals) ∧
    ((buildQueue true jobs reals).countP (fun t => !t.kind.isReal) = jobs) ∧
    (∀ t ∈ (buildQueue true jobs reals).take jobs, t.kind.isReal = false) ∧
    (buildQueue false jobs reals = reals) := by
  have hshape : buildQueue true jobs reals =
      ((List.range jobs).map
        (fun i => ({ id := reals.length + i, kind := TaskKind.wait i } : Task))).reverse
        ++ reals := by
    unfold buildQueue
    rw [if_pos rfl]
    exact range_foldl_cons _ jobs reals
  refine ⟨hshape, ?_, ?_, rfl⟩
  · rw [hshape, List.countP_append]
    have hA : ∀ t ∈ ((List.range jobs).map
        (fun i => ({ id := reals.length + i, kind := TaskKind.wait i } : Task))).reverse,
        (!t.kind.isReal) = true := by
      intro t ht
      simp only [List.mem_reverse, List.mem_map] at ht
      obtain ⟨i, _, rfl⟩ := ht
      rfl
    rw [List.countP_eq_length.mpr hA]
    have hB : (reals.countP fun t => !t.kind.isReal) = 0 := by
      rw [List.countP_eq_zero]
      intro t ht
      simp [hreals t ht]
    rw [hB]
    simp
  · intro t ht
    rw [hshape, List.take_append_eq_append_take] at ht
    have hlenA : ((List.range jobs).map
        (fun i => ({ id := reals.length + i, kind := TaskKind.wait i } : Task))).reverse.length
          = jobs := by
      simp
    rw [List.take_of_length_le (le_of_eq hlenA), hlenA, Nat.sub_self, List.take_zero,
      List.append_nil] at ht
    simp only [List.mem_reverse, List.mem_map] at ht
    obtain ⟨i, _, rfl⟩ := ht
    rfl

/-- Witness for C4 at concrete inputs: slow-start with limit 2 and one real
job queues the wait tasks of ranks 1 and 0 ahead of the real job. -/
theorem slow_start_wait_tasks_witness :
    buildQueue true 2 [⟨0, TaskKind.realOk⟩] =
      [⟨2, TaskKind.wait 1⟩, ⟨1, TaskKind.wait 0⟩, ⟨0, TaskKind.realOk⟩] := by
  have h := (slow_start_wait_tasks 2 [⟨0, TaskKind.realOk⟩] (by decide)).1
  rw [h]
  decide

/-! ## C9: failures never abort the batch; aggregator drained once at end -/

/-- C9: for every batch and schedule with enough completions, the pool runs
to full completion regardless of job failures; the channel drained after
the pool finishes holds exactly one (path, message) record per failed job,
in completion order; and every task — failed or not — completed.  In the
source the drain is the single try_iter traversal at lib.rs 432, reached
only after the while-let loop exhausts the pool, and sends never block (the
channel is unbounded). -/
theorem aggregator_contract (tasks : List Task) (jobs : Nat) (sched : List Nat)
    (hj : 1 ≤ jobs) (hlen : tasks.length ≤ sched.length) :
    (run (initState tasks jobs) sched).running = [] ∧
    (run (initState tasks jobs) sched).queue = [] ∧
    ((run (initState tasks jobs) sched).records =
      (run (initState tasks jobs) sched).finished.filterMap
        (fun t => t.kind.errRecord)) ∧
    (((run (initState tasks jobs) sched).finished.map Task.id).Perm
      (tasks.map Task.id)) := by
  have hinv := run_inv sched (init_inv tasks jobs hj)
  have hm0 : (initState tasks jobs).running.length +
      (initState tasks jobs).queue.length = tasks.length := by
    simp only [initState]
    rw [← List.length_append, List.take_append_drop]
  obtain ⟨hrn, hqn⟩ := run_drains sched (init_inv tasks jobs hj) (by omega)
  refine ⟨hrn, hqn, hinv.records_eq, ?_⟩
  have hp := hinv.perm
  rw [hrn, hqn] at hp
  simpa using hp

/-- Witness for C9 at a concrete batch: a single failing job under limit 1
completes, the batch is not aborted, and the drained channel holds exactly
its record. -/
theorem aggregator_contract_witness :
    (run (initState [⟨0, TaskKind.realErr 7 3⟩] 1) [0]).running = [] ∧
    (run (initState [⟨0, TaskKind.realErr 7 3⟩] 1) [0]).queue = [] ∧
    ((run (initState [⟨0, TaskKind.realErr 7 3⟩] 1) [0]).records =
      (run (initState [⟨0, TaskKind.realErr 7 3⟩] 1) [0]).finished.filterMap
        (fun t => t.kind.errRecord)) ∧
    (((run (initState [⟨0, TaskKind.realErr 7 3⟩] 1) [0]).finished.map Task.id).Perm
      ([⟨0, TaskKind.realErr 7 3⟩].map Task.id)) :=
  aggregator_contract [⟨0, TaskKind.realErr 7 3⟩] 1 [0] (by decide) (by decide)

end Jiffy
